import Mathlib

/-!
Verification development for the Personalized-X-Recommendation repository.

The repository ships a Next.js frontend (`frontend/lib/api.ts` and pages) and
documentation for a FastAPI ranking backend.  The frontend client functions are
embedded below directly from `frontend/lib/api.ts` and `frontend/app/page.tsx`.
The backend ranking pipeline itself (`backend/ranking/`, `backend/schemas.py`)
is not part of the available sources, so the pipeline (`Rank` and its stages)
is modelled from the specification (spec.md sections 3, 4, 6 and 7); each such
definition is marked `Modelled from the spec`.

Numeric scores are modelled with `ℚ`.  All definitions are executable so that
concrete runs of the pipeline can be evaluated inside proofs.
-/

namespace XRec

/-- User record, embedded from `frontend/lib/api.ts` (interface `User`). -/
structure User where
  id : String
  handle : String
  display_name : String
  bio : String
  topics : List String
  following_ids : List String
  followers_count : Nat
  following_count : Nat
deriving DecidableEq

/-- Post record, embedded from `frontend/lib/api.ts` (interface `Post`). -/
structure Post where
  id : String
  author_id : String
  text : String
  post_type : String
  topics : List String
  created_at : Int
  like_count : Nat
  repost_count : Nat
  reply_count : Nat
  quote_count : Nat
  view_count : Nat
deriving DecidableEq

/-- Post plus hydrated author, from `frontend/lib/api.ts` (`PostWithAuthor`). -/
structure PostWithAuthor extends Post where
  author : Option User
deriving DecidableEq

/-- Per-action score row, from `frontend/lib/api.ts` (interface `ActionScore`). -/
structure ActionScore where
  action : String
  weight : ℚ
  probability : ℚ
  contribution : ℚ
deriving DecidableEq

/-- Per-item explanation, from `frontend/lib/api.ts` (`RankingExplanation`). -/
structure RankingExplanation where
  post_id : String
  final_score : ℚ
  rank : Nat
  source : String
  action_scores : List ActionScore
  diversity_penalty : ℚ
  recency_boost : ℚ
  topic_boost : ℚ
deriving DecidableEq

/-- Feed item, from `frontend/lib/api.ts` (interface `FeedItem`). -/
structure FeedItem where
  post : PostWithAuthor
  ranking_explanation : Option RankingExplanation
deriving DecidableEq

/-- Feed response, from `frontend/lib/api.ts` (interface `FeedResponse`). -/
structure FeedResponse where
  items : List FeedItem
  next_cursor : Option String
deriving DecidableEq

/-- Preference vector, from `frontend/lib/api.ts` (`AlgorithmPreferences`). -/
structure AlgorithmPreferences where
  recency_vs_popularity : ℚ
  friends_vs_global : ℚ
  niche_vs_viral : ℚ
  tech_weight : ℚ
  politics_weight : ℚ
  culture_weight : ℚ
  memes_weight : ℚ
  finance_weight : ℚ
  diversity_strength : ℚ
  exploration : ℚ
  negative_signal_strength : ℚ
deriving DecidableEq

/-- The fixed default preference vector, embedded from `frontend/app/page.tsx`
(`defaultPrefs`): 0.3, 0.4, 0.5, five topic weights 0.2, 0.6, 0.3, 0.8. -/
def defaultPrefs : AlgorithmPreferences :=
  { recency_vs_popularity := 3/10
    friends_vs_global := 2/5
    niche_vs_viral := 1/2
    tech_weight := 1/5
    politics_weight := 1/5
    culture_weight := 1/5
    memes_weight := 1/5
    finance_weight := 1/5
    diversity_strength := 3/5
    exploration := 3/10
    negative_signal_strength := 4/5 }

/-- Client-side preference loading, embedded from `frontend/app/page.tsx`
(`loadPrefs`): on a successful `getPreferences` call the returned vector is
used, on any failure the fixed `defaultPrefs` vector is used instead. -/
def loadPrefs (r : Except String AlgorithmPreferences) : AlgorithmPreferences :=
  match r with
  | Except.ok p => p
  | Except.error _ => defaultPrefs

/-- Clamp a rational to the interval [0, 1]. -/
def clamp01 (x : ℚ) : ℚ := max 0 (min 1 x)

/-- Clamp every preference field to [0, 1].  Modelled from the spec:
section 3 (`AlgorithmPreferences` invariant) and section 7(c) — out-of-range
values are clamped, not rejected. -/
def clampPrefs (p : AlgorithmPreferences) : AlgorithmPreferences :=
  { recency_vs_popularity := clamp01 p.recency_vs_popularity
    friends_vs_global := clamp01 p.friends_vs_global
    niche_vs_viral := clamp01 p.niche_vs_viral
    tech_weight := clamp01 p.tech_weight
    politics_weight := clamp01 p.politics_weight
    culture_weight := clamp01 p.culture_weight
    memes_weight := clamp01 p.memes_weight
    finance_weight := clamp01 p.finance_weight
    diversity_strength := clamp01 p.diversity_strength
    exploration := clamp01 p.exploration
    negative_signal_strength := clamp01 p.negative_signal_strength }

/-- Modelled from the spec: the preferences read interface
`GetPreferences(userId) -> AlgorithmPreferences` of section 6 (the backend
implementation is not among the available sources).  It must return the
default vector if unset and never an error; stored values are clamped to
[0, 1] per section 7(c). -/
def getPreferencesServer (stored : Option AlgorithmPreferences) : AlgorithmPreferences :=
  clampPrefs (stored.getD defaultPrefs)

/-- Candidate provenance tag (spec section 3): `in_network` or
`out_of_network`. -/
inductive Source where
  | in_network : Source
  | out_of_network : Source
deriving DecidableEq

/-- String form of a source tag, as it appears in `RankingExplanation.source`
(`frontend/lib/api.ts` uses the strings "in_network" / "out_of_network"). -/
def sourceStr : Source → String
  | Source.in_network => "in_network"
  | Source.out_of_network => "out_of_network"

/-- Modelled from the spec: a Candidate (section 3) is a post reference plus a
provenance tag, carried through every stage.  `priority` records the
source-priority order of section 4.1 (in-network 0, out-of-network 1,
external 2); external items keep the `out_of_network` tag. -/
structure Candidate where
  post : Post
  source : Source
  priority : Nat
deriving DecidableEq

/-- Modelled from the spec: the read-only store snapshot behind the store read
interface of section 6. -/
structure Store where
  users : List User
  posts : List Post
deriving DecidableEq

/-- Modelled from the spec: fixed source configuration of section 4.1 — the
lookback window, the per-author cap of the in-network source, and the merged
candidate budget shared between the sources. -/
structure RankConfig where
  window : Int
  perAuthorCap : Nat
  budget : Nat
deriving DecidableEq

/-- Total lexicographic comparison of two character lists by code point. -/
def charListLe : List Char → List Char → Bool
  | [], _ => true
  | _ :: _, [] => false
  | a :: as, b :: bs =>
    if a.toNat < b.toNat then true
    else if b.toNat < a.toNat then false
    else charListLe as bs

/-- Deterministic total order on post-id strings (lexicographic by code
point), used for tie-breaking (spec section 4.7). -/
def idLe (a b : String) : Bool := charListLe a.toList b.toList

/-- Modelled from the spec: recency order of the in-network source
(section 4.1, most recent first), with the deterministic id tie-break. -/
def recencyLe (p q : Post) : Bool :=
  if q.created_at < p.created_at then true
  else if p.created_at < q.created_at then false
  else idLe p.id q.id

/-- Modelled from the spec: a post is inside the lookback window (section 4.1)
when its age relative to `now` is between 0 and `window` seconds. -/
def withinWindow (now window : Int) (p : Post) : Bool :=
  decide (0 ≤ now - p.created_at) && decide (now - p.created_at ≤ window)

/-- Modelled from the spec: per-author cap walk of the in-network source
(section 4.1) — keep at most `cap` posts per author, in list order. -/
def capWalk (cap : Nat) : List Post → (String → Nat) → List Post
  | [], _ => []
  | p :: rest, cnt =>
    if cnt p.author_id + 1 ≤ cap then
      p :: capWalk cap rest (fun a => if a = p.author_id then cnt p.author_id + 1 else cnt a)
    else capWalk cap rest cnt

/-- Modelled from the spec: the in-network candidate source (section 4.1) —
posts authored by followed users, inside the window, most recent first,
per-author capped, truncated to the source quota, tagged `in_network`. -/
def inNetworkSource (u : User) (store : Store) (now : Int) (cfg : RankConfig)
    (quota : Nat) : List Candidate :=
  let eligible := store.posts.filter
    (fun p => decide (p.author_id ∈ u.following_ids) && withinWindow now cfg.window p)
  let recent := eligible.insertionSort (fun p q => recencyLe p q = true)
  ((capWalk cfg.perAuthorCap recent (fun _ => 0)).take quota).map
    (fun p => { post := p, source := Source.in_network, priority := 0 })

/-- Engagement rate of a counter against views, a probability-like value in
[0, 1].  Modelled from the spec: section 4.4 mandates a pure heuristic of the
engagement counters; the exact formula is an implementation choice
(section 9). -/
def engagementRate (count views : Nat) : ℚ := min 1 ((count : ℚ) / ((views : ℚ) + 1))

/-- Number of the post topics that also appear among the user topics. -/
def overlapCount (userTopics postTopics : List String) : Nat :=
  (postTopics.filter (fun t => decide (t ∈ userTopics))).length

/-- Topic-affinity overlap of a user with a post, normalized by the number of
post topics.  Modelled from the spec (section 4.4). -/
def affinity (u : User) (p : Post) : ℚ :=
  (overlapCount u.topics p.topics : ℚ) / (max 1 p.topics.length : ℚ)

/-- Modelled from the spec: retrieval score of the out-of-network source
(section 4.1) — favors topic overlap with the user affinities and engagement
signals. -/
def oonScore (u : User) (p : Post) : ℚ :=
  (overlapCount u.topics p.topics : ℚ) + engagementRate (p.like_count + p.repost_count) p.view_count

/-- Modelled from the spec: candidate order of the out-of-network source,
best retrieval score first, deterministic id tie-break. -/
def oonLe (u : User) (p q : Post) : Bool :=
  if oonScore u q < oonScore u p then true
  else if oonScore u p < oonScore u q then false
  else idLe p.id q.id

/-- Modelled from the spec: the out-of-network candidate source (section 4.1)
— posts by non-followed authors inside the window, ordered by retrieval
score, truncated to the source quota, tagged `out_of_network`. -/
def outOfNetworkSource (u : User) (store : Store) (now : Int) (cfg : RankConfig)
    (quota : Nat) : List Candidate :=
  let eligible := store.posts.filter
    (fun p => decide (p.author_id ∉ u.following_ids) && decide (p.author_id ≠ u.id) &&
      withinWindow now cfg.window p)
  let best := eligible.insertionSort (fun p q => oonLe u p q = true)
  (best.take quota).map
    (fun p => { post := p, source := Source.out_of_network, priority := 1 })

/-- Modelled from the spec: optional external/injected source (sections 4.1
and 6); each injected item is tagged `out_of_network` with the lowest
source priority. -/
def externalSource (ext : List Post) : List Candidate :=
  ext.map (fun p => { post := p, source := Source.out_of_network, priority := 2 })

/-- Floor of `q * b` for a clamped fraction `q`, computed in ℕ.  Modelled from
the spec: section 4.1, `friends_vs_global` controls the quota share of the
candidate budget reserved for the in-network source. -/
def quotaShare (q : ℚ) (b : Nat) : Nat := (q.num.toNat * b) / q.den

/-- Modelled from the spec: candidate sourcing and merge order (section 4.1).
With `followingOnly` the out-of-network source is bypassed entirely
(section 6, pipeline entry point); otherwise the three sources are
concatenated in source-priority order. -/
def gatherCandidates (u : User) (prefs : AlgorithmPreferences) (store : Store)
    (ext : List Post) (now : Int) (cfg : RankConfig) (followingOnly : Bool) :
    List Candidate :=
  if followingOnly then inNetworkSource u store now cfg cfg.budget
  else
    let inQ := quotaShare prefs.friends_vs_global cfg.budget
    inNetworkSource u store now cfg inQ ++
      outOfNetworkSource u store now cfg (cfg.budget - inQ) ++ externalSource ext

/-- Modelled from the spec: merge deduplication (section 4.1) — remove
candidates whose post id has already occurred, keeping the first occurrence
in source-priority order. -/
def dedupById : List Candidate → List String → List Candidate
  | [], _ => []
  | c :: rest, seenIds =>
    if c.post.id ∈ seenIds then dedupById rest seenIds
    else c :: dedupById rest (c.post.id :: seenIds)

/-- Modelled from the spec: the hydrator (section 4.2) — resolve the author of
each candidate from the store; a candidate whose author cannot be resolved is
dropped (fail-soft).  The `Post` record of this repository carries no
parent/quote ids, so only author hydration is modelled. -/
def hydrate (store : Store) (cs : List Candidate) : List (Candidate × User) :=
  cs.filterMap (fun c =>
    (store.users.find? (fun v => decide (v.id = c.post.author_id))).map (fun u => (c, u)))

/-- Modelled from the spec: the pre-scoring filter chain (section 4.3) —
author not blocked/muted, post not previously shown, author is not the
requesting user.  Filters only exclude, they never mutate scores. -/
def passesFilters (u : User) (blocked seen : List String) (c : Candidate) : Bool :=
  decide (c.post.author_id ∉ blocked) && decide (c.post.id ∉ seen) &&
    decide (c.post.author_id ≠ u.id)

/-- Modelled from the spec: configured action weights of the multi-action
scorer (section 4.4); exact constants are an implementation choice. -/
def actionWeights : List (String × ℚ) := [("like", 1), ("repost", 3/2), ("reply", 5/4), ("quote", 1)]

/-- Engagement counter of a post for a named action type. -/
def actionCount (p : Post) (a : String) : Nat :=
  if a = "like" then p.like_count
  else if a = "repost" then p.repost_count
  else if a = "reply" then p.reply_count
  else if a = "quote" then p.quote_count
  else 0

/-- Modelled from the spec: heuristic action probability (section 4.4) — a
pure function of the engagement counters and the topic-affinity overlap,
clamped into [0, 1]. -/
def actionProb (u : User) (p : Post) (count : Nat) : ℚ :=
  clamp01 ((engagementRate count p.view_count + affinity u p) / 2)

/-- Modelled from the spec: the per-candidate ActionScore list (section 4.4):
one row per action with weight, probability and contribution
(weight × probability). -/
def actionScoresFor (u : User) (p : Post) : List ActionScore :=
  actionWeights.map (fun wa =>
    { action := wa.1
      weight := wa.2
      probability := actionProb u p (actionCount p wa.1)
      contribution := wa.2 * actionProb u p (actionCount p wa.1) })

/-- Sum of the contributions of an ActionScore list; the base score of
section 4.4 is this sum. -/
def sumContributions (l : List ActionScore) : ℚ := (l.map (fun a => a.contribution)).sum

/-- Age of a post in seconds relative to `now`, never negative. -/
def ageSeconds (now : Int) (p : Post) : ℚ := ((max 0 (now - p.created_at) : Int) : ℚ)

/-- Modelled from the spec: bounded, monotonically decreasing time-decay
(section 4.5) — asymptotes toward zero, never flips sign. -/
def decayFactor (now : Int) (p : Post) : ℚ := 1 / (1 + ageSeconds now p / 3600)

/-- Modelled from the spec: the recency boost (section 4.5), the decay scaled
by `(1 − recency_vs_popularity)`. -/
def recencyBoost (prefs : AlgorithmPreferences) (now : Int) (p : Post) : ℚ :=
  (1 - prefs.recency_vs_popularity) * decayFactor now p

/-- The topic-weight preference for one of the five named topics, 0 for any
other tag (spec section 3 and `frontend/lib/api.ts` field names). -/
def topicWeight (prefs : AlgorithmPreferences) (t : String) : ℚ :=
  if t = "tech" then prefs.tech_weight
  else if t = "politics" then prefs.politics_weight
  else if t = "culture" then prefs.culture_weight
  else if t = "memes" then prefs.memes_weight
  else if t = "finance" then prefs.finance_weight
  else 0

/-- Modelled from the spec: the topic boost (section 4.5) — sum of the
topic-weight preferences over the post tags, normalized by the tag count so
that many-tag posts cannot dominate. -/
def topicBoost (prefs : AlgorithmPreferences) (p : Post) : ℚ :=
  ((p.topics.map (topicWeight prefs)).sum) / (max 1 p.topics.length : ℚ)

/-- Modelled from the spec: a scored candidate flowing through the scorer,
adjuster, diversity and selection stages (sections 4.4–4.7).  The invariant
`final = base + recency + topic − penalty` is established by the scorer and
maintained by the diversity stage. -/
structure Scored where
  cand : Candidate
  author : User
  actions : List ActionScore
  base : ℚ
  recency : ℚ
  topic : ℚ
  penalty : ℚ
  final : ℚ
deriving DecidableEq

/-- Author id of a scored candidate. -/
def Scored.authorId (s : Scored) : String := s.cand.post.author_id

/-- Post id of a scored candidate. -/
def Scored.pid (s : Scored) : String := s.cand.post.id

/-- Modelled from the spec: the action-probability scorer plus the recency and
topic adjuster (sections 4.4 and 4.5); the diversity penalty starts at 0. -/
def scoreCandidate (u : User) (prefs : AlgorithmPreferences) (now : Int)
    (cu : Candidate × User) : Scored :=
  let b := sumContributions (actionScoresFor u cu.1.post)
  let r := recencyBoost prefs now cu.1.post
  let t := topicBoost prefs cu.1.post
  { cand := cu.1
    author := cu.2
    actions := actionScoresFor u cu.1.post
    base := b
    recency := r
    topic := t
    penalty := 0
    final := b + r + t }

/-- Modelled from the spec: the deterministic ranking key (section 4.7) —
higher final score first; ties broken by lower source priority, then more
recent creation time, then lexicographically smaller post id.  Encoded as a
lexicographic tuple ordered ascending (score and creation time negated). -/
def sortKey (s : Scored) : ℚ ×ₗ (ℕ ×ₗ (ℤ ×ₗ List Char)) :=
  toLex (-s.final, toLex (s.cand.priority, toLex (-s.cand.post.created_at, s.pid.toList)))

/-- The deterministic ranking order of section 4.7: comparison of the keys. -/
def scoredLe (x y : Scored) : Bool := decide (sortKey x ≤ sortKey y)

/-- Sort scored candidates by the deterministic ranking order. -/
def sortScored (l : List Scored) : List Scored :=
  l.insertionSort (fun x y => scoredLe x y = true)

/-- Modelled from the spec: the per-repeat diversity penalty (section 4.6) —
for the i-th occurrence of an author (i ≥ 2) the penalty is
`diversity_strength × f(i)` with the non-decreasing `f(i) = i − 1`. -/
def repeatPenalty (d : ℚ) (occ : Nat) : ℚ :=
  if 2 ≤ occ then d * ((occ - 1 : Nat) : ℚ) else 0

/-- Modelled from the spec: the single walk of the diversity re-ranker
(section 4.6) annotating each scored candidate with the occurrence index of
its author so far. -/
def occWalk : List Scored → (String → Nat) → List (Scored × Nat)
  | [], _ => []
  | s :: rest, cnt =>
    (s, cnt s.authorId + 1) ::
      occWalk rest (fun a => if a = s.authorId then cnt s.authorId + 1 else cnt a)

/-- Apply the diversity penalty for an annotated occurrence: the penalty is
recorded and subtracted from the running final score (spec section 4.6). -/
def applyPenalty (d : ℚ) (sn : Scored × Nat) : Scored :=
  { sn.1 with penalty := repeatPenalty d sn.2, final := sn.1.final - repeatPenalty d sn.2 }

/-- Modelled from the spec: the diversity re-ranker (section 4.6) — walk the
sorted list once, penalize repeated authors, then re-sort by the penalized
scores with the deterministic tie-break. -/
def diversityPass (d : ℚ) (l : List Scored) : List Scored :=
  sortScored ((occWalk l (fun _ => 0)).map (applyPenalty d))

/-- The explanation assembled for one surviving item (spec section 4.8). -/
def mkExplanation (s : Scored) (r : Nat) : RankingExplanation :=
  { post_id := s.pid
    final_score := s.final
    rank := r
    source := sourceStr s.cand.source
    action_scores := s.actions
    diversity_penalty := s.penalty
    recency_boost := s.recency
    topic_boost := s.topic }

/-- Modelled from the spec: the explanation builder (section 4.8) — emit the
selected items in final order with 1-based ranks; explanations are attached
only when requested and their omission does not change the ordering. -/
def buildItems (incl : Bool) : Nat → List Scored → List FeedItem
  | _, [] => []
  | r, s :: rest =>
    { post := { toPost := s.cand.post, author := some s.author }
      ranking_explanation := if incl then some (mkExplanation s r) else none } ::
      buildItems incl (r + 1) rest

/-- Modelled from the spec: the computational stages of one feed request
(sections 4.1–4.8): dedup, hydrate, filter, score, sort, diversity re-rank,
select `limit`, build explanations. -/
def rankPipeline (u : User) (prefs : AlgorithmPreferences) (blocked seen : List String)
    (now : Int) (limit : Nat) (incl : Bool) (cands : List Candidate) (store : Store) :
    List FeedItem :=
  let cs := dedupById cands []
  let hydrated := hydrate store cs
  let surviving := hydrated.filter (fun cu => passesFilters u blocked seen cu.1)
  let scored := surviving.map (scoreCandidate u prefs now)
  let ranked := diversityPass prefs.diversity_strength (sortScored scored)
  buildItems incl 1 (ranked.take limit)

/-- Modelled from the spec: the pipeline entry point
`Rank(userId, limit, includeExplanations, followingOnly)` of section 6, as a
pure function of the request user, preferences, store snapshot, external
candidate pool, blocked/muted set, seen-post set, clock and configuration.
Preferences are clamped on entry (section 7(c)). -/
def rank (u : User) (prefs0 : AlgorithmPreferences) (store : Store) (ext : List Post)
    (blocked seen : List String) (now : Int) (cfg : RankConfig) (limit : Nat)
    (incl followingOnly : Bool) : FeedResponse :=
  let prefs := clampPrefs prefs0
  let cands := gatherCandidates u prefs store ext now cfg followingOnly
  { items := rankPipeline u prefs blocked seen now limit incl cands store
    next_cursor := none }

/-- Modelled from the spec: request-level validation of the feed endpoint
(section 7(e)) — a malformed request (non-positive limit, unknown user id) is
the only failure surfaced to the caller; everything else returns a normal
(possibly empty) response. -/
def handleFeedRequest (store : Store) (userId : String)
    (storedPrefs : Option AlgorithmPreferences) (ext : List Post)
    (blocked seen : List String) (now : Int) (cfg : RankConfig) (limit : Nat)
    (incl followingOnly : Bool) : Except String FeedResponse :=
  if limit = 0 then Except.error "limit must be positive"
  else
    match store.users.find? (fun v => decide (v.id = userId)) with
    | none => Except.error "unknown user"
    | some u =>
      Except.ok (rank u (getPreferencesServer storedPrefs) store ext blocked seen now cfg
        limit incl followingOnly)

/-- An HTTP response as seen by the frontend client: the `ok` flag, the raw
body text, and the parsed feed payload. -/
structure HttpResponse where
  ok : Bool
  body : String
  feed : FeedResponse

/-- Client-side feed fetch, embedded from `frontend/lib/api.ts` (`getFeed`):
`if (!res.ok) throw new Error(await res.text()); return res.json();` — an
error built from the response body exactly when the response is not ok,
otherwise the parsed `FeedResponse`. -/
def getFeedResult (r : HttpResponse) : Except String FeedResponse :=
  if r.ok then Except.ok r.feed else Except.error r.body

/-- String form of a JavaScript boolean, as produced by `String(b)`. -/
def boolParam (b : Bool) : String := if b then "true" else "false"

/-- Query parameters built by `getFeed` in `frontend/lib/api.ts`:
`new URLSearchParams({ limit: "50", include_explanations: String(...) })`,
then `following_only=true` is appended when requested.  The page size is the
fixed string "50"; no argument of `getFeed` can change it. -/
def getFeedParams (includeExplanations followingOnly : Bool) : List (String × String) :=
  [("limit", "50"), ("include_explanations", boolParam includeExplanations)] ++
    (if followingOnly then [("following_only", "true")] else [])

/-- Request body of `createPost`, embedded from `frontend/lib/api.ts`:
`JSON.stringify({ author_id: authorId, text: text.slice(0, 280), topics })`. -/
structure CreatePostBody where
  author_id : String
  text : String
  topics : List String
deriving DecidableEq

/-- Client-side post creation body, embedded from `frontend/lib/api.ts`
(`createPost`): the submitted text is `text.slice(0, 280)`, the input
truncated to its first 280 characters. -/
def createPostBody (authorId text : String) (topics : List String) : CreatePostBody :=
  { author_id := authorId, text := text.take 280, topics := topics }

/-- Length of the run of copies of `a` at the head of a list. -/
def runLen (a : String) : List String → Nat
  | [] => 0
  | b :: t => if b = a then runLen a t + 1 else 0

/-- Length of the leading run of equal entries of a list. -/
def leadRun : List String → Nat
  | [] => 0
  | b :: t => runLen b t + 1

/-- Length of the longest run of consecutive equal entries of a list. -/
def maxConsecRun : List String → Nat
  | [] => 0
  | a :: t => max (runLen a t + 1) (maxConsecRun t)

/-- Author-id sequence of a feed item list, in output order. -/
def feedAuthors (items : List FeedItem) : List String :=
  items.map (fun it => it.post.author_id)

/-- Post-id sequence of a feed item list, in output order. -/
def feedIds (items : List FeedItem) : List String :=
  items.map (fun it => it.post.id)

/-- Rank values carried by the explanations of a feed item list, in output
order. -/
def ranksOf (items : List FeedItem) : List Nat :=
  items.filterMap (fun it => it.ranking_explanation.map (fun e => e.rank))

/-- Replace only the `diversity_strength` field of a preference vector. -/
def setDiversity (p : AlgorithmPreferences) (d : ℚ) : AlgorithmPreferences :=
  { p with diversity_strength := d }

/-- Every preference field lies in the interval [0, 1]. -/
def prefsInRange (p : AlgorithmPreferences) : Prop :=
  (0 ≤ p.recency_vs_popularity ∧ p.recency_vs_popularity ≤ 1) ∧
  (0 ≤ p.friends_vs_global ∧ p.friends_vs_global ≤ 1) ∧
  (0 ≤ p.niche_vs_viral ∧ p.niche_vs_viral ≤ 1) ∧
  (0 ≤ p.tech_weight ∧ p.tech_weight ≤ 1) ∧
  (0 ≤ p.politics_weight ∧ p.politics_weight ≤ 1) ∧
  (0 ≤ p.culture_weight ∧ p.culture_weight ≤ 1) ∧
  (0 ≤ p.memes_weight ∧ p.memes_weight ≤ 1) ∧
  (0 ≤ p.finance_weight ∧ p.finance_weight ≤ 1) ∧
  (0 ≤ p.diversity_strength ∧ p.diversity_strength ≤ 1) ∧
  (0 ≤ p.exploration ∧ p.exploration ≤ 1) ∧
  (0 ≤ p.negative_signal_strength ∧ p.negative_signal_strength ≤ 1)

/-- A minimal user record for concrete runs of the pipeline. -/
def mkUser (i : String) : User :=
  { id := i, handle := i, display_name := i, bio := "", topics := [],
    following_ids := [], followers_count := 0, following_count := 0 }

/-- The requesting user of the concrete scenario: follows five authors. -/
def cexUser : User :=
  { mkUser "u" with following_ids := ["a", "b", "c", "d", "e"] }

/-- A concrete post for the scenario: topic-free, 79 views, adjustable like
count so that the base score is `likes / 160`. -/
def mkPost (i a : String) (likes : Nat) : Post :=
  { id := i, author_id := a, text := "", post_type := "original", topics := [],
    created_at := 0, like_count := likes, repost_count := 0, reply_count := 0,
    quote_count := 0, view_count := 79 }

/-- Store snapshot of the concrete scenario: author `a` has three posts with
descending engagement, interleaved with single posts by `b`, `c`, `d`, `e`. -/
def cexStore : Store :=
  { users := [mkUser "a", mkUser "b", mkUser "c", mkUser "d", mkUser "e"],
    posts := [mkPost "p1" "a" 80, mkPost "p2" "b" 72, mkPost "p3" "a" 68,
              mkPost "p4" "c" 64, mkPost "p5" "a" 60, mkPost "p6" "d" 16,
              mkPost "p7" "e" 8] }

/-- Source configuration of the concrete scenario. -/
def cexCfg : RankConfig := { window := 1000, perAuthorCap := 10, budget := 100 }

/-- Preferences of the concrete scenario: recency boost switched off
(`recency_vs_popularity = 1`) so final scores equal the base scores, with an
adjustable diversity strength. -/
def cexPrefs (d : ℚ) : AlgorithmPreferences :=
  { recency_vs_popularity := 1, friends_vs_global := 1/2, niche_vs_viral := 1/2,
    tech_weight := 1/5, politics_weight := 1/5, culture_weight := 1/5,
    memes_weight := 1/5, finance_weight := 1/5, diversity_strength := d,
    exploration := 0, negative_signal_strength := 1 }

/-- One concrete run of the pipeline entry point over the scenario, with
explanations on and `followingOnly` on, at diversity strength `d`. -/
def cexRun (d : ℚ) : FeedResponse :=
  rank cexUser (cexPrefs d) cexStore [] [] [] 0 cexCfg 50 true true

/-! ### Order lemmas for the deterministic ranking order -/

theorem scoredLe_iff (x y : Scored) : scoredLe x y = true ↔ sortKey x ≤ sortKey y := by
  simp [scoredLe]

theorem scoredLe_refl (x : Scored) : scoredLe x x = true := by
  simp [scoredLe]

theorem scoredLe_trans {x y z : Scored} (h1 : scoredLe x y = true)
    (h2 : scoredLe y z = true) : scoredLe x z = true := by
  rw [scoredLe_iff] at h1 h2 ⊢
  exact le_trans h1 h2

theorem scoredLe_total (x y : Scored) : scoredLe x y = true ∨ scoredLe y x = true := by
  rw [scoredLe_iff, scoredLe_iff]
  exact le_total _ _

theorem scoredLe_of_not {x y : Scored} (h : ¬ scoredLe x y = true) : scoredLe y x = true :=
  (scoredLe_total x y).resolve_left h

instance : IsTotal Scored (fun x y => scoredLe x y = true) :=
  ⟨fun x y => scoredLe_total x y⟩

instance : IsTrans Scored (fun x y => scoredLe x y = true) :=
  ⟨fun _ _ _ h1 h2 => scoredLe_trans h1 h2⟩

theorem string_toList_inj {s t : String} (h : s.toList = t.toList) : s = t := by
  cases s
  cases t
  exact congrArg String.mk (by simpa [String.toList] using h)

theorem sortKey_pid_eq {x y : Scored} (h : sortKey x = sortKey y) : x.pid = y.pid := by
  unfold sortKey at h
  have h1 := toLex.injective h
  have h2 := toLex.injective (congrArg Prod.snd h1)
  have h3 := toLex.injective (congrArg Prod.snd h2)
  exact string_toList_inj (congrArg Prod.snd h3)

theorem scoredLe_antisymm_pid {x y : Scored} (h1 : scoredLe x y = true)
    (h2 : scoredLe y x = true) : x.pid = y.pid := by
  rw [scoredLe_iff] at h1 h2
  exact sortKey_pid_eq (le_antisymm h1 h2)

theorem sortKey_le_of_final_le {y e : Scored} (hc : e.cand = y.cand)
    (hf : e.final ≤ y.final) : sortKey y ≤ sortKey e := by
  unfold sortKey
  rw [Prod.Lex.le_iff]
  rcases lt_or_eq_of_le (neg_le_neg hf) with h | h
  · exact Or.inl h
  · refine Or.inr ⟨h, ?_⟩
    have hp : e.pid = y.pid := by simp [Scored.pid, hc]
    rw [hc, hp]

/-! ### Penalty and occurrence-walk lemmas -/

theorem repeatPenalty_nonneg {d : ℚ} (hd : 0 ≤ d) (n : Nat) : 0 ≤ repeatPenalty d n := by
  unfold repeatPenalty
  split
  · exact mul_nonneg hd (Nat.cast_nonneg _)
  · exact le_rfl

theorem repeatPenalty_mono {d1 d2 : ℚ} (h12 : d1 ≤ d2) (n : Nat) :
    repeatPenalty d1 n ≤ repeatPenalty d2 n := by
  unfold repeatPenalty
  split
  · exact mul_le_mul_of_nonneg_right h12 (Nat.cast_nonneg _)
  · exact le_rfl

theorem applyPenalty_cand (d : ℚ) (sn : Scored × Nat) :
    (applyPenalty d sn).cand = sn.1.cand := rfl

theorem applyPenalty_authorId (d : ℚ) (sn : Scored × Nat) :
    (applyPenalty d sn).authorId = sn.1.authorId := rfl

theorem applyPenalty_pid (d : ℚ) (sn : Scored × Nat) :
    (applyPenalty d sn).pid = sn.1.pid := rfl

theorem applyPenalty_final (d : ℚ) (sn : Scored × Nat) :
    (applyPenalty d sn).final = sn.1.final - repeatPenalty d sn.2 := rfl

theorem applyPenalty_final_le {d : ℚ} (hd : 0 ≤ d) (sn : Scored × Nat) :
    (applyPenalty d sn).final ≤ sn.1.final := by
  rw [applyPenalty_final]
  exact sub_le_self _ (repeatPenalty_nonneg hd _)

theorem applyPenalty_one {d : ℚ} {s : Scored} (hp : s.penalty = 0) :
    applyPenalty d (s, 1) = s := by
  cases s
  simp_all [applyPenalty, repeatPenalty]

theorem sortKey_applyPenalty_mono {d1 d2 : ℚ} (h12 : d1 ≤ d2) (sn : Scored × Nat) :
    sortKey (applyPenalty d1 sn) ≤ sortKey (applyPenalty d2 sn) := by
  refine sortKey_le_of_final_le (by rw [applyPenalty_cand, applyPenalty_cand]) ?_
  rw [applyPenalty_final, applyPenalty_final]
  exact sub_le_sub_left (repeatPenalty_mono h12 _) _

theorem sortKey_le_applyPenalty {d : ℚ} (hd : 0 ≤ d) (sn : Scored × Nat) :
    sortKey sn.1 ≤ sortKey (applyPenalty d sn) :=
  sortKey_le_of_final_le (applyPenalty_cand d sn) (applyPenalty_final_le hd sn)

theorem occWalk_map_fst : ∀ (l : List Scored) (cnt : String → Nat),
    (occWalk l cnt).map Prod.fst = l := by
  intro l
  induction l with
  | nil => intro _; rfl
  | cons s rest ih => intro cnt; simp [occWalk, ih]

theorem occWalk_length (l : List Scored) (cnt : String → Nat) :
    (occWalk l cnt).length = l.length := by
  have := congrArg List.length (occWalk_map_fst l cnt)
  simpa using this

theorem mem_occWalk_fst {l : List Scored} {cnt : String → Nat} {sn : Scored × Nat}
    (h : sn ∈ occWalk l cnt) : sn.1 ∈ l := by
  rw [← occWalk_map_fst l cnt]
  exact List.mem_map_of_mem Prod.fst h

theorem occWalk_first {s : Scored} : ∀ (as : List Scored) (bs : List Scored)
    (cnt : String → Nat), (∀ a ∈ as, a.authorId ≠ s.authorId) → cnt s.authorId = 0 →
    (s, 1) ∈ occWalk (as ++ s :: bs) cnt := by
  intro as
  induction as with
  | nil =>
    intro bs cnt _ hcnt
    simp [occWalk, hcnt]
  | cons a t ih =>
    intro bs cnt hne hcnt
    have ha : a.authorId ≠ s.authorId := hne a (List.mem_cons_self a t)
    have hstep : ((a :: t) ++ s :: bs) = a :: (t ++ s :: bs) := rfl
    rw [hstep]
    show (s, 1) ∈ (a, cnt a.authorId + 1) ::
      occWalk (t ++ s :: bs) (fun x => if x = a.authorId then cnt a.authorId + 1 else cnt x)
    have hcnt2 : (fun x => if x = a.authorId then cnt a.authorId + 1 else cnt x) s.authorId = 0 := by
      show (if s.authorId = a.authorId then cnt a.authorId + 1 else cnt s.authorId) = 0
      rw [if_neg (fun h => ha h.symm)]
      exact hcnt
    exact List.mem_cons_of_mem _ (ih bs _ (fun x hx => hne x (List.mem_cons_of_mem a hx)) hcnt2)

/-! ### Generic list lemmas -/

theorem first_split {α : Type _} (p : α → Bool) :
    ∀ l : List α, (∃ x ∈ l, p x = true) →
      ∃ as b bs, l = as ++ b :: bs ∧ (∀ a ∈ as, p a = false) ∧ p b = true := by
  intro l
  induction l with
  | nil => rintro ⟨x, hx, _⟩; cases hx
  | cons a t ih =>
    rintro ⟨x, hx, hpx⟩
    by_cases hpa : p a = true
    · refine ⟨[], a, t, rfl, ?_, hpa⟩
      intro y hy
      cases hy
    · have hxt : x ∈ t := by
        rcases List.mem_cons.mp hx with h | h
        · subst h; exact absurd hpx hpa
        · exact h
      obtain ⟨as, b, bs, h1, h2, h3⟩ := ih ⟨x, hxt, hpx⟩
      refine ⟨a :: as, b, bs, by rw [h1, List.cons_append], ?_, h3⟩
      intro y hy
      rcases List.mem_cons.mp hy with h | h
      · subst h
        cases hb : p y
        · rfl
        · exact absurd hb hpa
      · exact h2 y h

theorem takeWhile_length_eq_countP {α : Type _} (le : α → α → Bool) (p : α → Bool)
    (hdc : ∀ a b, le a b = true → p b = true → p a = true) :
    ∀ l : List α, List.Pairwise (fun a b => le a b = true) l →
      (l.takeWhile p).length = l.countP p := by
  intro l
  induction l with
  | nil => intro _; rfl
  | cons a t ih =>
    intro hp
    rcases List.pairwise_cons.mp hp with ⟨hrel, ht⟩
    cases hpa : p a
    · have h0 : t.countP p = 0 := by
        rw [List.countP_eq_zero]
        intro b hb hpb
        have := hdc a b (hrel b hb) hpb
        rw [hpa] at this
        cases this
      rw [List.takeWhile_cons, hpa, List.countP_cons, hpa, h0]
      rfl
    · rw [List.takeWhile_cons, hpa, List.countP_cons, hpa]
      simp [ih ht]

theorem dropWhile_head_false {α : Type _} (p : α → Bool) :
    ∀ (l : List α) (y : α) (t : List α), l.dropWhile p = y :: t → p y = false := by
  intro l
  induction l with
  | nil => intro y t h; cases h
  | cons a s ih =>
    intro y t h
    rw [List.dropWhile_cons] at h
    by_cases hpa : p a = true
    · rw [if_pos hpa] at h
      exact ih y t h
    · rw [if_neg hpa] at h
      cases h
      cases hb : p a
      · rfl
      · exact absurd hb hpa

/-! ### Lemmas about run lengths -/

theorem runLen_all {a : String} : ∀ u : List String, (∀ x ∈ u, x = a) →
    runLen a u = u.length := by
  intro u
  induction u with
  | nil => intro _; rfl
  | cons b t ih =>
    intro h
    have hb : b = a := h b (List.mem_cons_self b t)
    simp [runLen, hb, ih (fun x hx => h x (List.mem_cons_of_mem b hx))]

theorem runLen_append {a : String} : ∀ (s r : List String), (∀ x ∈ s, x = a) →
    runLen a (s ++ r) = s.length + runLen a r := by
  intro s
  induction s with
  | nil => intro r _; simp
  | cons b t ih =>
    intro r h
    have hb : b = a := h b (List.mem_cons_self b t)
    simp [runLen, hb, ih r (fun x hx => h x (List.mem_cons_of_mem b hx))]
    omega

theorem runLen_zero {a : String} {r : List String} (h : ∀ y t, r = y :: t → y ≠ a) :
    runLen a r = 0 := by
  cases r with
  | nil => rfl
  | cons y t => simp [runLen, h y t rfl]

theorem leadRun_append {s r : List String} {a : String} (hs : ∀ x ∈ s, x = a)
    (hr : ∀ y t, r = y :: t → y ≠ a) (hne : s ≠ []) : leadRun (s ++ r) = s.length := by
  cases s with
  | nil => exact absurd rfl hne
  | cons b u =>
    have hb : b = a := hs b (List.mem_cons_self b u)
    subst hb
    show runLen b (u ++ r) + 1 = u.length + 1
    rw [runLen_append u r (fun x hx => hs x (List.mem_cons_of_mem b hx)), runLen_zero hr]

theorem leadRun_all {l : List String} {a : String} (h : ∀ x ∈ l, x = a) :
    leadRun l = l.length := by
  cases l with
  | nil => rfl
  | cons b u =>
    show runLen b u + 1 = u.length + 1
    rw [runLen_all u (fun x hx => (h x (List.mem_cons_of_mem b hx)).trans
      (h b (List.mem_cons_self b u)).symm)]

theorem runLen_take (a : String) : ∀ (l : List String) (n : Nat),
    runLen a (l.take n) = min (runLen a l) n := by
  intro l
  induction l with
  | nil => intro n; simp [runLen]
  | cons b t ih =>
    intro n
    cases n with
    | zero => simp [runLen]
    | succ m =>
      rw [List.take_succ_cons]
      by_cases hb : b = a
      · simp only [runLen, if_pos hb, ih m]
        omega
      · simp [runLen, hb]

theorem leadRun_take : ∀ (l : List String) (n : Nat),
    leadRun (l.take n) = min (leadRun l) n := by
  intro l n
  cases l with
  | nil => simp [leadRun]
  | cons b t =>
    cases n with
    | zero => simp [leadRun]
    | succ m =>
      rw [List.take_succ_cons]
      show runLen b (t.take m) + 1 = min (runLen b t + 1) (m + 1)
      rw [runLen_take]
      omega

/-! ### Sorting lemmas -/

theorem sortScored_perm (l : List Scored) : (sortScored l).Perm l :=
  List.perm_insertionSort _ l

theorem sortScored_pairwise (l : List Scored) :
    List.Pairwise (fun a b => scoredLe a b = true) (sortScored l) :=
  List.sorted_insertionSort _ l

theorem mem_sortScored {l : List Scored} {x : Scored} : x ∈ sortScored l ↔ x ∈ l :=
  List.mem_insertionSort _

/-! ### The diversity re-ranker and leading runs

The leading run of the author sequence of the re-ranked list equals the number
of penalized candidates that still outrank the best candidate of any other
author; that count is antitone in the diversity strength. -/

theorem div_leadRun_eq (h0 : Scored) (t : List Scored) (b0 : Scored) (d : ℚ) (hd : 0 ≤ d)
    (hsort : List.Pairwise (fun a b => scoredLe a b = true) (h0 :: t))
    (hpen : ∀ s ∈ h0 :: t, s.penalty = 0)
    (hids : ((h0 :: t).map Scored.pid).Nodup)
    (hb0mem : b0 ∈ h0 :: t) (hb0a : b0.authorId ≠ h0.authorId)
    (hb0min : ∀ s ∈ h0 :: t, s.authorId ≠ h0.authorId → scoredLe b0 s = true)
    (hb0occ : (b0, 1) ∈ occWalk (h0 :: t) (fun _ => 0)) :
    leadRun ((diversityPass d (h0 :: t)).map Scored.authorId) =
      (occWalk (h0 :: t) (fun _ => 0)).countP
        (fun sn => !(scoredLe b0 (applyPenalty d sn))) := by
  set L := h0 :: t with hL
  set A := occWalk L (fun _ => 0) with hA
  set E := A.map (applyPenalty d) with hE
  set out := sortScored E with hout
  set P : Scored → Bool := fun e => !(scoredLe b0 e) with hP
  have hb0p : b0.penalty = 0 := hpen b0 hb0mem
  have hb0E : b0 ∈ E := by
    rw [hE]
    exact (applyPenalty_one (d := d) hb0p) ▸ List.mem_map_of_mem _ hb0occ
  have hEnonA : ∀ e ∈ E, e.authorId ≠ h0.authorId → scoredLe b0 e = true := by
    intro e he hea
    rw [hE] at he
    obtain ⟨sn, hsn, rfl⟩ := List.mem_map.mp he
    have h1 : sn.1 ∈ L := mem_occWalk_fst hsn
    have h2 : sn.1.authorId ≠ h0.authorId := by
      rwa [applyPenalty_authorId] at hea
    have h3 : scoredLe b0 sn.1 = true := hb0min sn.1 h1 h2
    rw [scoredLe_iff] at h3 ⊢
    exact le_trans h3 (sortKey_le_applyPenalty hd sn)
  have hh0occ : (h0, 1) ∈ A := by
    rw [hA, hL]
    show (h0, 1) ∈ occWalk (h0 :: t) (fun _ => 0)
    simp [occWalk]
  have hh0E : h0 ∈ E := by
    rw [hE]
    exact (applyPenalty_one (d := d) (hpen h0 (List.mem_cons_self h0 t))) ▸
      List.mem_map_of_mem _ hh0occ
  have hb0ne : b0 ≠ h0 := fun h => hb0a (by rw [h])
  have hinjL : ∀ x ∈ L, ∀ y ∈ L, x.pid = y.pid → x = y := fun x hx y hy hxy =>
    List.inj_on_of_nodup_map hids hx hy hxy
  have hb0h0 : scoredLe h0 b0 = true := by
    rcases List.mem_cons.mp hb0mem with h | h
    · exact absurd h hb0ne
    · exact (List.pairwise_cons.mp hsort).1 b0 h
  have hPh0 : P h0 = true := by
    show (!(scoredLe b0 h0)) = true
    cases hc : scoredLe b0 h0
    · rfl
    · exact absurd (hinjL b0 hb0mem h0 (List.mem_cons_self h0 t)
        (scoredLe_antisymm_pid hc hb0h0)) hb0ne
  have hPb0 : P b0 = false := by
    show (!(scoredLe b0 b0)) = false
    rw [scoredLe_refl]
    rfl
  have hdc : ∀ a b : Scored, scoredLe a b = true → P b = true → P a = true := by
    intro a b hab hb
    have hb2 : (!(scoredLe b0 b)) = true := hb
    show (!(scoredLe b0 a)) = true
    cases hc : scoredLe b0 a
    · rfl
    · have h3 := scoredLe_trans hc hab
      simp [h3] at hb2
  have hperm : out.Perm E := sortScored_perm E
  have hsorted : List.Pairwise (fun a b => scoredLe a b = true) out := sortScored_pairwise E
  have hpidsE : E.map Scored.pid = L.map Scored.pid := by
    rw [hE, List.map_map]
    have h1 : (Scored.pid ∘ applyPenalty d) = fun sn : Scored × Nat => sn.1.pid := by
      funext sn
      exact applyPenalty_pid d sn
    rw [h1, hA]
    rw [show (fun sn : Scored × Nat => sn.1.pid) = Scored.pid ∘ Prod.fst from rfl]
    rw [← List.map_map, occWalk_map_fst]
  have hidsE : (E.map Scored.pid).Nodup := by rw [hpidsE]; exact hids
  have hidsOut : (out.map Scored.pid).Nodup := ((hperm.map Scored.pid).nodup_iff).mpr hidsE
  have hinjOut : ∀ x ∈ out, ∀ y ∈ out, x.pid = y.pid → x = y := fun x hx y hy hxy =>
    List.inj_on_of_nodup_map hidsOut hx hy hxy
  have htw_author : ∀ x ∈ out.takeWhile P, x.authorId = h0.authorId := by
    intro x hx
    have hPx0 : P x = true := List.mem_takeWhile_imp hx
    have hPx : (!(scoredLe b0 x)) = true := hPx0
    have hxE : x ∈ E := hperm.mem_iff.mp ((List.takeWhile_sublist P).subset hx)
    by_contra hne
    have := hEnonA x hxE hne
    simp [this] at hPx
  have hlen : (out.takeWhile P).length = out.countP P :=
    takeWhile_length_eq_countP scoredLe P hdc out hsorted
  have hcntE : out.countP P = E.countP P := hperm.countP_eq P
  have hcpos : 0 < E.countP P := by
    rw [List.countP_pos_iff]
    exact ⟨h0, hh0E, hPh0⟩
  have htwne : out.takeWhile P ≠ [] := by
    intro hnil
    have h1 : out.countP P = 0 := by rw [← hlen, hnil]; rfl
    rw [hcntE] at h1
    omega
  have hdw_author : ∀ y ys, out.dropWhile P = y :: ys → y.authorId ≠ h0.authorId := by
    intro y ys hdw hya
    have hPy0 : P y = false := dropWhile_head_false P out y ys hdw
    have hPy : (!(scoredLe b0 y)) = false := hPy0
    have hb0out : b0 ∈ out := hperm.mem_iff.mpr hb0E
    have hb0dw : b0 ∈ out.dropWhile P := by
      have hsp := List.takeWhile_append_dropWhile P out
      have h2 := hb0out
      rw [← hsp] at h2
      rcases List.mem_append.mp h2 with h | h
      · have := List.mem_takeWhile_imp h
        rw [hPb0] at this
        cases this
      · exact h
    rw [hdw] at hb0dw
    rcases List.mem_cons.mp hb0dw with h | h
    · exact hb0a (by rw [h]; exact hya)
    · have hdwsub : List.Pairwise (fun a b => scoredLe a b = true) (y :: ys) := by
        rw [← hdw]
        exact hsorted.sublist (List.dropWhile_sublist P)
      have hyb0 : scoredLe y b0 = true := (List.pairwise_cons.mp hdwsub).1 b0 h
      have hb0y : scoredLe b0 y = true := by
        cases hc : scoredLe b0 y
        · rw [hc] at hPy
          cases hPy
        · rfl
      have hyout : y ∈ out := (List.dropWhile_sublist P).subset
        (by rw [hdw]; exact List.mem_cons_self _ _)
      have hby : b0 = y := hinjOut b0 hb0out y hyout (scoredLe_antisymm_pid hb0y hyb0)
      exact hb0a (by rw [hby]; exact hya)
  have hsp := List.takeWhile_append_dropWhile P out
  have hmapped : (out.map Scored.authorId) =
      ((out.takeWhile P).map Scored.authorId) ++ ((out.dropWhile P).map Scored.authorId) := by
    rw [← List.map_append, hsp]
  have hlr : leadRun (out.map Scored.authorId) = (out.takeWhile P).length := by
    rw [hmapped]
    rw [leadRun_append (a := h0.authorId) ?hs ?hr ?hne]
    · exact List.length_map _ _
    case hs =>
      intro x hx
      obtain ⟨z, hz, rfl⟩ := List.mem_map.mp hx
      exact htw_author z hz
    case hr =>
      intro y ys hyys hya
      cases hdwc : out.dropWhile P with
      | nil =>
        rw [hdwc] at hyys
        cases hyys
      | cons z zs =>
        rw [hdwc] at hyys
        have hz : z.authorId = y := by
          rw [List.map_cons] at hyys
          injection hyys with h1 _
        exact hdw_author z zs hdwc (by rw [hz]; exact hya)
    case hne =>
      intro hmapnil
      exact htwne (List.map_eq_nil_iff.mp hmapnil)
  have hDP : diversityPass d L = out := rfl
  rw [hDP, hlr, hlen, hcntE, hE, List.countP_map]
  rfl

theorem buildItems_authors (incl : Bool) : ∀ (r : Nat) (l : List Scored),
    feedAuthors (buildItems incl r l) = l.map Scored.authorId := by
  intro r l
  induction l generalizing r with
  | nil => rfl
  | cons s rest ih =>
    show s.cand.post.author_id :: feedAuthors (buildItems incl (r + 1) rest) =
      Scored.authorId s :: rest.map Scored.authorId
    rw [ih (r + 1)]
    rfl

theorem buildItems_ids (incl : Bool) : ∀ (r : Nat) (l : List Scored),
    feedIds (buildItems incl r l) = l.map Scored.pid := by
  intro r l
  induction l generalizing r with
  | nil => rfl
  | cons s rest ih =>
    show s.cand.post.id :: feedIds (buildItems incl (r + 1) rest) =
      Scored.pid s :: rest.map Scored.pid
    rw [ih (r + 1)]
    rfl

theorem buildItems_length (incl : Bool) : ∀ (r : Nat) (l : List Scored),
    (buildItems incl r l).length = l.length := by
  intro r l
  induction l generalizing r with
  | nil => rfl
  | cons s rest ih =>
    show (buildItems incl (r + 1) rest).length + 1 = rest.length + 1
    rw [ih (r + 1)]

theorem buildItems_ranks : ∀ (r : Nat) (l : List Scored),
    ranksOf (buildItems true r l) = List.range' r l.length := by
  intro r l
  induction l generalizing r with
  | nil => rfl
  | cons s rest ih =>
    show r :: ranksOf (buildItems true (r + 1) rest) = r :: List.range' (r + 1) rest.length
    rw [ih (r + 1)]

theorem buildItems_expl_mem (incl : Bool) : ∀ (r : Nat) (l : List Scored)
    (it : FeedItem), it ∈ buildItems incl r l → ∀ e, it.ranking_explanation = some e →
    ∃ s k, s ∈ l ∧ e = mkExplanation s k := by
  intro r l
  induction l generalizing r with
  | nil =>
    intro it hit
    cases hit
  | cons s rest ih =>
    intro it hit e he
    rcases List.mem_cons.mp hit with h | h
    · cases incl with
      | false =>
        rw [h] at he
        cases he
      | true =>
        rw [h] at he
        have : mkExplanation s r = e := by
          injection he
        exact ⟨s, r, List.mem_cons_self s rest, this.symm⟩
    · obtain ⟨s2, k, hs2, he2⟩ := ih (r + 1) it h e he
      exact ⟨s2, k, List.mem_cons_of_mem s hs2, he2⟩

/-! ### Deduplication and id-uniqueness plumbing -/

theorem dedupById_spec : ∀ (l : List Candidate) (acc : List String),
    ((dedupById l acc).map (fun c => c.post.id)).Nodup ∧
      ∀ c ∈ dedupById l acc, c.post.id ∉ acc := by
  intro l
  induction l with
  | nil =>
    intro acc
    refine ⟨List.nodup_nil, ?_⟩
    intro c hc
    cases hc
  | cons c rest ih =>
    intro acc
    by_cases hmem : c.post.id ∈ acc
    · simp only [dedupById, if_pos hmem]
      exact ih acc
    · simp only [dedupById, if_neg hmem]
      obtain ⟨ih1, ih2⟩ := ih (c.post.id :: acc)
      constructor
      · rw [List.map_cons, List.nodup_cons]
        refine ⟨?_, ih1⟩
        intro hin
        obtain ⟨c2, hc2, heq⟩ := List.mem_map.mp hin
        exact ih2 c2 hc2 (by rw [heq]; exact List.mem_cons_self _ _)
      · intro x hx
        rcases List.mem_cons.mp hx with h | h
        · rw [h]
          exact hmem
        · intro hxa
          exact ih2 x h (List.mem_cons_of_mem _ hxa)

theorem dedupById_subset : ∀ (l : List Candidate) (acc : List String) (c : Candidate),
    c ∈ dedupById l acc → c ∈ l := by
  intro l
  induction l with
  | nil =>
    intro acc c hc
    cases hc
  | cons a rest ih =>
    intro acc c hc
    by_cases hmem : a.post.id ∈ acc
    · rw [dedupById, if_pos hmem] at hc
      exact List.mem_cons_of_mem a (ih _ c hc)
    · rw [dedupById, if_neg hmem] at hc
      rcases List.mem_cons.mp hc with h | h
      · rw [h]
        exact List.mem_cons_self a rest
      · exact List.mem_cons_of_mem a (ih _ c h)

theorem hydrate_fst_sublist (store : Store) : ∀ cs : List Candidate,
    ((hydrate store cs).map Prod.fst).Sublist cs := by
  intro cs
  induction cs with
  | nil => exact List.Sublist.refl _
  | cons c rest ih =>
    show ((List.filterMap _ (c :: rest)).map Prod.fst).Sublist (c :: rest)
    rw [List.filterMap_cons]
    cases hf : (store.users.find? (fun v => decide (v.id = c.post.author_id))).map
        (fun u => (c, u)) with
    | none => exact ih.cons c
    | some cu =>
      obtain ⟨u, _, rfl⟩ := Option.map_eq_some'.mp hf
      exact ih.cons₂ c

theorem mem_hydrate_fst {store : Store} {cs : List Candidate} {cu : Candidate × User}
    (h : cu ∈ hydrate store cs) : cu.1 ∈ cs :=
  (hydrate_fst_sublist store cs).subset (List.mem_map_of_mem Prod.fst h)

theorem diversity_leadRun_antitone (L : List Scored) (d1 d2 : ℚ)
    (hd1 : 0 ≤ d1) (h12 : d1 ≤ d2)
    (hsort : List.Pairwise (fun a b => scoredLe a b = true) L)
    (hpen : ∀ s ∈ L, s.penalty = 0)
    (hids : (L.map Scored.pid).Nodup) :
    leadRun ((diversityPass d2 L).map Scored.authorId) ≤
      leadRun ((diversityPass d1 L).map Scored.authorId) := by
  cases L with
  | nil => exact le_rfl
  | cons h0 t =>
    by_cases hall : ∀ x ∈ h0 :: t, x.authorId = h0.authorId
    · have hlen : ∀ d : ℚ, (diversityPass d (h0 :: t)).length = (h0 :: t).length := by
        intro d
        unfold diversityPass sortScored
        rw [(List.perm_insertionSort _ _).length_eq, List.length_map, occWalk_length]
      have hauth : ∀ d : ℚ, ∀ x ∈ diversityPass d (h0 :: t), x.authorId = h0.authorId := by
        intro d x hx
        unfold diversityPass at hx
        rw [mem_sortScored] at hx
        obtain ⟨sn, hsn, rfl⟩ := List.mem_map.mp hx
        rw [applyPenalty_authorId]
        exact hall sn.1 (mem_occWalk_fst hsn)
      have e1 : leadRun ((diversityPass d1 (h0 :: t)).map Scored.authorId) =
          (h0 :: t).length := by
        rw [leadRun_all (a := h0.authorId) ?h, List.length_map, hlen d1]
        case h =>
          intro x hx
          obtain ⟨z, hz, rfl⟩ := List.mem_map.mp hx
          exact hauth d1 z hz
      have e2 : leadRun ((diversityPass d2 (h0 :: t)).map Scored.authorId) =
          (h0 :: t).length := by
        rw [leadRun_all (a := h0.authorId) ?h, List.length_map, hlen d2]
        case h =>
          intro x hx
          obtain ⟨z, hz, rfl⟩ := List.mem_map.mp hx
          exact hauth d2 z hz
      rw [e1, e2]
    · push_neg at hall
      obtain ⟨x0, hx0mem, hx0a⟩ := hall
      obtain ⟨as, b0, bs, hsplit, hasP, hbP⟩ := first_split
        (fun s => decide (s.authorId ≠ h0.authorId)) (h0 :: t) ⟨x0, hx0mem, by simp [hx0a]⟩
      have hb0a : b0.authorId ≠ h0.authorId := by simpa using hbP
      have hasA : ∀ a ∈ as, a.authorId = h0.authorId := by
        intro a ha
        have := hasP a ha
        simpa using this
      have hb0mem : b0 ∈ h0 :: t := by
        rw [hsplit]
        exact List.mem_append_right _ (List.mem_cons_self _ _)
      have hb0min : ∀ s ∈ h0 :: t, s.authorId ≠ h0.authorId → scoredLe b0 s = true := by
        intro s hs hsa
        rw [hsplit] at hs
        rcases List.mem_append.mp hs with h | h
        · exact absurd (hasA s h) hsa
        · rcases List.mem_cons.mp h with h | h
          · rw [h]
            exact scoredLe_refl b0
          · have hpw : List.Pairwise (fun a b => scoredLe a b = true) (b0 :: bs) := by
              have h1 : List.Pairwise (fun a b => scoredLe a b = true) (as ++ b0 :: bs) := by
                rw [← hsplit]
                exact hsort
              exact (List.pairwise_append.mp h1).2.1
            exact (List.pairwise_cons.mp hpw).1 s h
      have hb0occ : (b0, 1) ∈ occWalk (h0 :: t) (fun _ => 0) := by
        rw [hsplit]
        exact occWalk_first as bs _ (fun a ha hc => hb0a (hc.symm.trans (hasA a ha))) rfl
      have hd2 : (0:ℚ) ≤ d2 := le_trans hd1 h12
      have e1 := div_leadRun_eq h0 t b0 d1 hd1 hsort hpen hids hb0mem hb0a hb0min hb0occ
      have e2 := div_leadRun_eq h0 t b0 d2 hd2 hsort hpen hids hb0mem hb0a hb0min hb0occ
      rw [e1, e2]
      apply List.countP_mono_left
      intro sn hsn h2
      show (!(scoredLe b0 (applyPenalty d1 sn))) = true
      cases hc : scoredLe b0 (applyPenalty d1 sn)
      · rfl
      · have h3 : scoredLe b0 (applyPenalty d2 sn) = true := by
          rw [scoredLe_iff] at hc ⊢
          exact le_trans hc (sortKey_applyPenalty_mono h12 sn)
        simp [h3] at h2

/-! ### Clamp lemmas -/

theorem clamp01_nonneg (x : ℚ) : 0 ≤ clamp01 x := le_max_left 0 _

theorem clamp01_le_one (x : ℚ) : clamp01 x ≤ 1 :=
  max_le (by norm_num) (min_le_left _ _)

theorem clamp01_mono {a b : ℚ} (h : a ≤ b) : clamp01 a ≤ clamp01 b :=
  max_le_max le_rfl (min_le_min le_rfl h)

/-! ### Pipeline decomposition -/

theorem rank_items_eq (u : User) (p : AlgorithmPreferences) (store : Store) (ext : List Post)
    (blocked seen : List String) (now : Int) (cfg : RankConfig) (limit : Nat)
    (incl fOnly : Bool) :
    (rank u p store ext blocked seen now cfg limit incl fOnly).items =
      buildItems incl 1 ((diversityPass (clampPrefs p).diversity_strength
        (sortScored (((hydrate store (dedupById
          (gatherCandidates u (clampPrefs p) store ext now cfg fOnly) [])).filter
            (fun cu => passesFilters u blocked seen cu.1)).map
              (scoreCandidate u (clampPrefs p) now)))).take limit) := rfl

theorem clampPrefs_setDiversity (p : AlgorithmPreferences) (d : ℚ) :
    clampPrefs (setDiversity p d) = setDiversity (clampPrefs p) (clamp01 d) := rfl

theorem gather_setDiversity (u : User) (q : AlgorithmPreferences) (store : Store)
    (ext : List Post) (now : Int) (cfg : RankConfig) (f : Bool) (d : ℚ) :
    gatherCandidates u (setDiversity q d) store ext now cfg f =
      gatherCandidates u q store ext now cfg f := rfl

theorem score_setDiversity (u : User) (q : AlgorithmPreferences) (now : Int) (d : ℚ) :
    scoreCandidate u (setDiversity q d) now = scoreCandidate u q now := rfl

theorem scored_pen0 (u : User) (q : AlgorithmPreferences) (now : Int)
    (l : List (Candidate × User)) :
    ∀ s ∈ l.map (scoreCandidate u q now), s.penalty = 0 := by
  intro s hs
  obtain ⟨cu, _, rfl⟩ := List.mem_map.mp hs
  rfl

theorem scored_consistent (u : User) (q : AlgorithmPreferences) (now : Int)
    (l : List (Candidate × User)) :
    ∀ s ∈ l.map (scoreCandidate u q now),
      s.final = sumContributions s.actions + s.recency + s.topic - s.penalty := by
  intro s hs
  obtain ⟨cu, _, rfl⟩ := List.mem_map.mp hs
  show sumContributions (actionScoresFor u cu.1.post) + recencyBoost q now cu.1.post +
    topicBoost q cu.1.post = sumContributions (actionScoresFor u cu.1.post) +
      recencyBoost q now cu.1.post + topicBoost q cu.1.post - 0
  ring

theorem pipeline_sorted_ids_nodup (u : User) (q : AlgorithmPreferences)
    (blocked seen : List String) (now : Int) (cands : List Candidate) (store : Store) :
    ((sortScored (((hydrate store (dedupById cands [])).filter
      (fun cu => passesFilters u blocked seen cu.1)).map (scoreCandidate u q now))).map
        Scored.pid).Nodup := by
  set cs := dedupById cands [] with hcs
  set hyd := hydrate store cs with hhyd
  set surv := hyd.filter (fun cu => passesFilters u blocked seen cu.1) with hsurv
  set scored := surv.map (scoreCandidate u q now) with hscored
  have h0 : (cs.map (fun c => c.post.id)).Nodup := (dedupById_spec cands []).1
  have h1 : ((hyd.map Prod.fst).map (fun c => c.post.id)).Nodup :=
    ((hydrate_fst_sublist store cs).map (fun c => c.post.id)).nodup h0
  have hsub : (surv.map Prod.fst).Sublist (hyd.map Prod.fst) :=
    (List.filter_sublist hyd).map Prod.fst
  have h2 : ((surv.map Prod.fst).map (fun c => c.post.id)).Nodup :=
    (hsub.map (fun c => c.post.id)).nodup h1
  have h3 : scored.map Scored.pid = (surv.map Prod.fst).map (fun c => c.post.id) := by
    rw [hscored, List.map_map, List.map_map]
    rfl
  have h4 : (scored.map Scored.pid).Nodup := by
    rw [h3]
    exact h2
  exact (((sortScored_perm scored).map Scored.pid).nodup_iff).mpr h4

/-- C6 (amended): holding the user, store snapshot, candidate pool, request
parameters and all other preferences fixed, increasing `diversity_strength`
never increases the leading run of consecutive same-author items at the head
of the `rank` output — the local same-author clustering that the diversity
re-ranker of spec section 4.6 bounds.  (Deeper in the list, consecutive
same-author items can become adjacent as penalized repeats sink together, so
the original claim about the whole top-K list fails; see the
counterexample.)  The per-repeat penalty is `diversity_strength × (i − 1)`
for the i-th occurrence (i ≥ 2), by definition of `repeatPenalty`. -/
theorem rank_diversity_leadRun_antitone (u : User) (p : AlgorithmPreferences)
    (store : Store) (ext : List Post) (blocked seen : List String) (now : Int)
    (cfg : RankConfig) (limit : Nat) (incl fOnly : Bool) (d1 d2 : ℚ) (h12 : d1 ≤ d2) :
    leadRun (feedAuthors
      (rank u (setDiversity p d2) store ext blocked seen now cfg limit incl fOnly).items) ≤
    leadRun (feedAuthors
      (rank u (setDiversity p d1) store ext blocked seen now cfg limit incl fOnly).items) := by
  have hit : ∀ d : ℚ,
      (rank u (setDiversity p d) store ext blocked seen now cfg limit incl fOnly).items =
        buildItems incl 1 ((diversityPass (clamp01 d)
          (sortScored (((hydrate store (dedupById
            (gatherCandidates u (clampPrefs p) store ext now cfg fOnly) [])).filter
              (fun cu => passesFilters u blocked seen cu.1)).map
                (scoreCandidate u (clampPrefs p) now)))).take limit) := fun d => rfl
  have hcore := diversity_leadRun_antitone
    (sortScored (((hydrate store (dedupById
      (gatherCandidates u (clampPrefs p) store ext now cfg fOnly) [])).filter
        (fun cu => passesFilters u blocked seen cu.1)).map
          (scoreCandidate u (clampPrefs p) now)))
    (clamp01 d1) (clamp01 d2) (clamp01_nonneg d1) (clamp01_mono h12)
    (sortScored_pairwise _)
    (fun s hs => scored_pen0 u (clampPrefs p) now _ s (mem_sortScored.mp hs))
    (pipeline_sorted_ids_nodup u (clampPrefs p) blocked seen now _ store)
  rw [hit d1, hit d2, buildItems_authors, buildItems_authors, List.map_take, List.map_take,
    leadRun_take, leadRun_take]
  omega

/-! ### Further pipeline lemmas -/

theorem mem_diversityPass {d : ℚ} {l : List Scored} {x : Scored} (hx : x ∈ diversityPass d l) :
    ∃ sn, sn ∈ occWalk l (fun _ => 0) ∧ x = applyPenalty d sn := by
  unfold diversityPass at hx
  rw [mem_sortScored] at hx
  obtain ⟨sn, hsn, hx2⟩ := List.mem_map.mp hx
  exact ⟨sn, hsn, hx2.symm⟩

theorem diversityPass_pids_perm (d : ℚ) (l : List Scored) :
    ((diversityPass d l).map Scored.pid).Perm (l.map Scored.pid) := by
  unfold diversityPass
  have h1 := (sortScored_perm ((occWalk l (fun _ => 0)).map (applyPenalty d))).map Scored.pid
  have h2 : (((occWalk l (fun _ => 0)).map (applyPenalty d)).map Scored.pid) =
      l.map Scored.pid := by
    rw [List.map_map]
    have h3 : (Scored.pid ∘ applyPenalty d) = fun sn : Scored × Nat => sn.1.pid := by
      funext sn
      rfl
    rw [h3, show (fun sn : Scored × Nat => sn.1.pid) = Scored.pid ∘ Prod.fst from rfl,
      ← List.map_map, occWalk_map_fst]
  rw [h2] at h1
  exact h1

theorem inNetworkSource_source {u : User} {store : Store} {now : Int} {cfg : RankConfig}
    {quota : Nat} {c : Candidate} (hc : c ∈ inNetworkSource u store now cfg quota) :
    c.source = Source.in_network := by
  unfold inNetworkSource at hc
  obtain ⟨p, _, hp⟩ := List.mem_map.mp hc
  rw [← hp]

theorem inNetworkSource_empty (u : User) (users : List User) (now : Int) (cfg : RankConfig)
    (quota : Nat) : inNetworkSource u { users := users, posts := [] } now cfg quota = [] := by
  simp [inNetworkSource, capWalk]

theorem outOfNetworkSource_empty (u : User) (users : List User) (now : Int)
    (cfg : RankConfig) (quota : Nat) :
    outOfNetworkSource u { users := users, posts := [] } now cfg quota = [] := by
  simp [outOfNetworkSource]

theorem gather_empty (u : User) (q : AlgorithmPreferences) (users : List User) (now : Int)
    (cfg : RankConfig) (f : Bool) :
    gatherCandidates u q { users := users, posts := [] } [] now cfg f = [] := by
  unfold gatherCandidates
  cases f
  · simp [inNetworkSource_empty, outOfNetworkSource_empty, externalSource]
  · simp [inNetworkSource_empty]

theorem rank_empty_posts (u : User) (p : AlgorithmPreferences) (users : List User)
    (blocked seen : List String) (now : Int) (cfg : RankConfig) (limit : Nat)
    (incl f : Bool) :
    rank u p { users := users, posts := [] } [] blocked seen now cfg limit incl f =
      { items := [], next_cursor := none } := by
  have h : (rank u p { users := users, posts := [] } [] blocked seen now cfg limit
      incl f).items = [] := by
    rw [rank_items_eq, gather_empty]
    simp [dedupById, hydrate, sortScored, diversityPass, occWalk, buildItems,
      List.insertionSort]
  have h2 : rank u p { users := users, posts := [] } [] blocked seen now cfg limit incl f =
      { items := (rank u p { users := users, posts := [] } [] blocked seen now cfg limit
          incl f).items,
        next_cursor := none } := rfl
  rw [h2, h]

/-! ### Claim theorems -/

/-- C1: for every fixed input (user, preferences, store snapshot, external
candidate pool, blocked/muted set, seen set, clock, configuration, limit and
flags), any two invocations of the `rank` pipeline entry point produce
identical output — the same item ordering and the same explanation values.
The pipeline is modelled as a pure function of its inputs, with a total
deterministic tie-break order, so two invocations on equal inputs are equal
by reflexivity. -/
theorem rank_deterministic (u : User) (p : AlgorithmPreferences) (store : Store)
    (ext : List Post) (blocked seen : List String) (now : Int) (cfg : RankConfig)
    (limit : Nat) (incl fOnly : Bool) :
    rank u p store ext blocked seen now cfg limit incl fOnly =
      rank u p store ext blocked seen now cfg limit incl fOnly := rfl

/-- C2: for every item returned by the `rank` pipeline with explanations
enabled, the explanation reconstructs the ordering score exactly:
`final_score = Σ contributions + recency_boost + topic_boost −
diversity_penalty` (exact rational arithmetic, so within any tolerance). -/
theorem rank_explanation_consistent (u : User) (p : AlgorithmPreferences) (store : Store)
    (ext : List Post) (blocked seen : List String) (now : Int) (cfg : RankConfig)
    (limit : Nat) (incl fOnly : Bool) :
    ∀ it ∈ (rank u p store ext blocked seen now cfg limit incl fOnly).items,
      ∀ e, it.ranking_explanation = some e →
        e.final_score = sumContributions e.action_scores + e.recency_boost +
          e.topic_boost - e.diversity_penalty := by
  intro it hit e he
  rw [rank_items_eq] at hit
  obtain ⟨s, k, hs, rfl⟩ := buildItems_expl_mem incl 1 _ it hit e he
  obtain ⟨sn, hsn, rfl⟩ := mem_diversityPass (List.mem_of_mem_take hs)
  have h2 := mem_sortScored.mp (mem_occWalk_fst hsn)
  have hgood := scored_consistent u (clampPrefs p) now _ sn.1 h2
  have hpen := scored_pen0 u (clampPrefs p) now _ sn.1 h2
  show (applyPenalty (clampPrefs p).diversity_strength sn).final =
    sumContributions (applyPenalty (clampPrefs p).diversity_strength sn).actions +
      (applyPenalty (clampPrefs p).diversity_strength sn).recency +
      (applyPenalty (clampPrefs p).diversity_strength sn).topic -
      (applyPenalty (clampPrefs p).diversity_strength sn).penalty
  rw [applyPenalty_final,
    show (applyPenalty (clampPrefs p).diversity_strength sn).actions = sn.1.actions from rfl,
    show (applyPenalty (clampPrefs p).diversity_strength sn).recency = sn.1.recency from rfl,
    show (applyPenalty (clampPrefs p).diversity_strength sn).topic = sn.1.topic from rfl,
    show (applyPenalty (clampPrefs p).diversity_strength sn).penalty =
      repeatPenalty (clampPrefs p).diversity_strength sn.2 from rfl,
    hgood, hpen]
  ring

/-- C3: every `rank` invocation returns at most `limit` items, and with
explanations enabled the rank values carried by the explanations are exactly
the dense sequence 1..N for the N returned items, in output order. -/
theorem rank_limit_and_dense_ranks (u : User) (p : AlgorithmPreferences) (store : Store)
    (ext : List Post) (blocked seen : List String) (now : Int) (cfg : RankConfig)
    (limit : Nat) (incl fOnly : Bool) :
    (rank u p store ext blocked seen now cfg limit incl fOnly).items.length ≤ limit ∧
    (incl = true → ranksOf (rank u p store ext blocked seen now cfg limit incl fOnly).items =
      List.range' 1 (rank u p store ext blocked seen now cfg limit incl fOnly).items.length) := by
  constructor
  · rw [rank_items_eq, buildItems_length, List.length_take]
    exact min_le_left _ _
  · intro hincl
    subst hincl
    rw [rank_items_eq, buildItems_ranks, buildItems_length]

/-- C4: no two items in a `rank` output share a post id — the merge
deduplicates by post id keeping the first occurrence in source-priority
order, and id uniqueness is preserved through hydration, filtering, scoring,
both sorts and the final truncation. -/
theorem rank_no_duplicate_ids (u : User) (p : AlgorithmPreferences) (store : Store)
    (ext : List Post) (blocked seen : List String) (now : Int) (cfg : RankConfig)
    (limit : Nat) (incl fOnly : Bool) :
    (feedIds (rank u p store ext blocked seen now cfg limit incl fOnly).items).Nodup := by
  rw [rank_items_eq, buildItems_ids, List.map_take]
  refine (List.take_sublist _ _).nodup ?_
  refine ((diversityPass_pids_perm _ _).nodup_iff).mpr ?_
  exact pipeline_sorted_ids_nodup u (clampPrefs p) blocked seen now _ store

/-- C5: with `followingOnly = true` the candidate gathering degenerates to
the in-network source alone (the out-of-network and external sources are
bypassed), and every returned item's explanation carries the source tag
`in_network`; the filter, scoring, diversity, selection and explanation
stages are the same `rankPipeline` stages as for a normal request. -/
theorem rank_followingOnly_in_network (u : User) (p : AlgorithmPreferences) (store : Store)
    (ext : List Post) (blocked seen : List String) (now : Int) (cfg : RankConfig)
    (limit : Nat) (incl fOnly : Bool) (hf : fOnly = true) :
    gatherCandidates u (clampPrefs p) store ext now cfg fOnly =
      inNetworkSource u store now cfg cfg.budget ∧
    ∀ it ∈ (rank u p store ext blocked seen now cfg limit incl fOnly).items,
      ∀ e, it.ranking_explanation = some e → e.source = "in_network" := by
  subst hf
  refine ⟨rfl, ?_⟩
  intro it hit e he
  rw [rank_items_eq] at hit
  obtain ⟨s, k, hs, rfl⟩ := buildItems_expl_mem incl 1 _ it hit e he
  obtain ⟨sn, hsn, rfl⟩ := mem_diversityPass (List.mem_of_mem_take hs)
  have h2 := mem_sortScored.mp (mem_occWalk_fst hsn)
  obtain ⟨cu, hcu, hcueq⟩ := List.mem_map.mp h2
  have h3 := List.mem_of_mem_filter hcu
  have h4 := mem_hydrate_fst h3
  have h5 := dedupById_subset _ _ _ h4
  have h6 : cu.1 ∈ inNetworkSource u store now cfg cfg.budget := h5
  have h7 := inNetworkSource_source h6
  have hcand : (applyPenalty (clampPrefs p).diversity_strength sn).cand.source =
      Source.in_network := by
    rw [applyPenalty_cand, ← hcueq]
    exact h7
  show sourceStr (applyPenalty (clampPrefs p).diversity_strength sn).cand.source = "in_network"
  rw [hcand]
  rfl

/-- C7: the client `getFeed` surfaces an error to the caller exactly when the
HTTP response is not ok (the thrown error is built from the response body),
and otherwise returns the parsed feed; server-side, a well-formed request
(known user, positive limit) over a store with zero candidates yields an
empty item list, not an error. -/
theorem getFeed_error_contract (r : HttpResponse) (users : List User) (uid : String)
    (sp : Option AlgorithmPreferences) (blocked seen : List String) (now : Int)
    (cfg : RankConfig) (limit : Nat) (incl fOnly : Bool) (u : User)
    (hu : users.find? (fun v => decide (v.id = uid)) = some u) (hlim : limit ≠ 0) :
    (getFeedResult r = Except.error r.body ↔ r.ok = false) ∧
    (getFeedResult r = Except.ok r.feed ↔ r.ok = true) ∧
    handleFeedRequest { users := users, posts := [] } uid sp [] blocked seen now cfg
      limit incl fOnly = Except.ok { items := [], next_cursor := none } := by
  refine ⟨?_, ?_, ?_⟩
  · cases hok : r.ok
    · simp [getFeedResult, hok]
    · simp [getFeedResult, hok]
  · cases hok : r.ok
    · simp [getFeedResult, hok]
    · simp [getFeedResult, hok]
  · unfold handleFeedRequest
    rw [if_neg hlim]
    simp only [hu]
    rw [rank_empty_posts]

/-- C8: reading preferences never leaves the consumer without a valid
vector: a failed `getPreferences` call falls back to the fixed
`defaultPrefs` (0.3, 0.4, 0.5, five topic weights 0.2, 0.6, 0.3, 0.8), and a
successful call returns the server vector, which the (spec-modelled) server
clamps to [0, 1] with the default for unset preferences — so the resulting
vector is always complete with every field in [0, 1]. -/
theorem loadPrefs_always_valid (stored : Option AlgorithmPreferences) (e : String) :
    loadPrefs (Except.error e) = defaultPrefs ∧
    defaultPrefs.recency_vs_popularity = 3/10 ∧ defaultPrefs.friends_vs_global = 2/5 ∧
    defaultPrefs.niche_vs_viral = 1/2 ∧ defaultPrefs.tech_weight = 1/5 ∧
    defaultPrefs.politics_weight = 1/5 ∧ defaultPrefs.culture_weight = 1/5 ∧
    defaultPrefs.memes_weight = 1/5 ∧ defaultPrefs.finance_weight = 1/5 ∧
    defaultPrefs.diversity_strength = 3/5 ∧ defaultPrefs.exploration = 3/10 ∧
    defaultPrefs.negative_signal_strength = 4/5 ∧
    prefsInRange defaultPrefs ∧
    prefsInRange (loadPrefs (Except.ok (getPreferencesServer stored))) := by
  refine ⟨rfl, rfl, rfl, rfl, rfl, rfl, rfl, rfl, rfl, rfl, rfl, rfl, ?_, ?_⟩
  · norm_num [prefsInRange, defaultPrefs]
  · show prefsInRange (clampPrefs (stored.getD defaultPrefs))
    exact ⟨⟨clamp01_nonneg _, clamp01_le_one _⟩, ⟨clamp01_nonneg _, clamp01_le_one _⟩,
      ⟨clamp01_nonneg _, clamp01_le_one _⟩, ⟨clamp01_nonneg _, clamp01_le_one _⟩,
      ⟨clamp01_nonneg _, clamp01_le_one _⟩, ⟨clamp01_nonneg _, clamp01_le_one _⟩,
      ⟨clamp01_nonneg _, clamp01_le_one _⟩, ⟨clamp01_nonneg _, clamp01_le_one _⟩,
      ⟨clamp01_nonneg _, clamp01_le_one _⟩, ⟨clamp01_nonneg _, clamp01_le_one _⟩,
      ⟨clamp01_nonneg _, clamp01_le_one _⟩⟩

theorem string_length_data (s : String) : s.length = s.data.length := rfl

/-- C9: for every author id, text and topics list, the `createPost` request
body carries the input text truncated to its first 280 characters, so the
submitted text never exceeds 280 characters even for longer input. -/
theorem createPost_truncates (a t : String) (ts : List String) :
    (createPostBody a t ts).text = t.take 280 ∧
    (createPostBody a t ts).text.length ≤ 280 ∧
    (createPostBody a t ts).author_id = a ∧ (createPostBody a t ts).topics = ts := by
  have hb : ∀ s : String, (s.take 280).length ≤ 280 := by
    intro s
    rw [string_length_data, String.data_take, List.length_take]
    omega
  refine ⟨by simp only [createPostBody], ?_, by simp only [createPostBody],
    by simp only [createPostBody]⟩
  simp only [createPostBody]
  exact hb t

/-- C10: every feed request built by the client carries the fixed query
parameter `limit=50`: `getFeed` exposes no parameter to change the page
size, so for all arguments the limit entry of the query string is "50". -/
theorem getFeed_limit_fixed (i f : Bool) :
    (getFeedParams i f).lookup "limit" = some "50" ∧
    ∀ kv ∈ getFeedParams i f, kv.1 = "limit" → kv.2 = "50" := by
  constructor
  · cases f <;> rfl
  · intro kv hkv hk
    cases f with
    | false =>
      have hkv2 : kv = ("limit", "50") ∨ kv = ("include_explanations", boolParam i) := by
        simpa [getFeedParams] using hkv
      rcases hkv2 with rfl | rfl
      · rfl
      · exact absurd hk (show ("include_explanations" : String) ≠ "limit" by decide)
    | true =>
      have hkv2 : kv = ("limit", "50") ∨ kv = ("include_explanations", boolParam i) ∨
          kv = ("following_only", "true") := by
        simpa [getFeedParams] using hkv
      rcases hkv2 with rfl | rfl | rfl
      · rfl
      · exact absurd hk (show ("include_explanations" : String) ≠ "limit" by decide)
      · exact absurd hk (show ("following_only" : String) ≠ "limit" by decide)

/-! ### Concrete runs: counterexample for the original C6 and witnesses -/

attribute [local semireducible] Rat.add Rat.mul Rat.inv Rat.sub

set_option maxRecDepth 10000 in
/-- C6 counterexample: the claim as stated is false.  In the concrete
scenario, raising `diversity_strength` from 0 to 1 while holding the user,
store snapshot, candidate pool and all other preferences fixed increases the
maximum number of consecutive same-author items in the top 7 of the output
from 1 to 2: at strength 0 the order is a,b,a,c,a,d,e; at strength 1 the two
penalized repeats of author a sink below every other candidate and become
adjacent at positions 6 and 7 (order a,b,c,d,e,a,a). -/
theorem rank_diversity_maxRun_counterexample :
    cexPrefs 1 = setDiversity (cexPrefs 0) 1 ∧
    maxConsecRun ((feedAuthors (cexRun 0).items).take 7) = 1 ∧
    maxConsecRun ((feedAuthors (cexRun 1).items).take 7) = 2 ∧
    ¬ maxConsecRun ((feedAuthors (cexRun 1).items).take 7) ≤
        maxConsecRun ((feedAuthors (cexRun 0).items).take 7) := by
  refine ⟨rfl, ?_, ?_, ?_⟩ <;> decide

/-- Witness for C6 (amended) at the concrete scenario: the leading run at
diversity strength 1 is at most the leading run at strength 0. -/
theorem rank_diversity_leadRun_antitone_witness :
    leadRun (feedAuthors
      (rank cexUser (setDiversity (cexPrefs 0) 1) cexStore [] [] [] 0 cexCfg 50
        true true).items) ≤
    leadRun (feedAuthors
      (rank cexUser (setDiversity (cexPrefs 0) 0) cexStore [] [] [] 0 cexCfg 50
        true true).items) :=
  rank_diversity_leadRun_antitone cexUser (cexPrefs 0) cexStore [] [] [] 0 cexCfg 50
    true true 0 1 (by norm_num)

set_option maxRecDepth 10000 in
/-- Witness for C2 at the concrete scenario: the run returns 7 items and
every explanation reconstructs its final score. -/
theorem rank_explanation_consistent_witness :
    (cexRun 1).items.length = 7 ∧
    (cexRun 1).items.Forall (fun it => ∀ e, it.ranking_explanation = some e →
      e.final_score = sumContributions e.action_scores + e.recency_boost + e.topic_boost -
        e.diversity_penalty) := by
  constructor
  · decide
  · rw [List.forall_iff_forall_mem]
    exact rank_explanation_consistent cexUser (cexPrefs 1) cexStore [] [] [] 0 cexCfg 50
      true true

/-- Witness for C3 at the concrete scenario: at most 50 items come back and
the ranks are the dense sequence 1..N. -/
theorem rank_limit_and_dense_ranks_witness :
    (cexRun 1).items.length ≤ 50 ∧
    ranksOf (cexRun 1).items = List.range' 1 (cexRun 1).items.length :=
  ⟨(rank_limit_and_dense_ranks cexUser (cexPrefs 1) cexStore [] [] [] 0 cexCfg 50
      true true).1,
   (rank_limit_and_dense_ranks cexUser (cexPrefs 1) cexStore [] [] [] 0 cexCfg 50
      true true).2 rfl⟩

set_option maxRecDepth 10000 in
/-- Witness for C5 at the concrete scenario: with `followingOnly` the
gathering is the in-network source alone, 7 items come back, and every
explanation is tagged `in_network`. -/
theorem rank_followingOnly_in_network_witness :
    gatherCandidates cexUser (clampPrefs (cexPrefs 1)) cexStore [] 0 cexCfg true =
      inNetworkSource cexUser cexStore 0 cexCfg cexCfg.budget ∧
    (cexRun 1).items.length = 7 ∧
    (cexRun 1).items.Forall (fun it => ∀ e, it.ranking_explanation = some e →
      e.source = "in_network") := by
  refine ⟨(rank_followingOnly_in_network cexUser (cexPrefs 1) cexStore [] [] [] 0 cexCfg
    50 true true rfl).1, by decide, ?_⟩
  rw [List.forall_iff_forall_mem]
  exact (rank_followingOnly_in_network cexUser (cexPrefs 1) cexStore [] [] [] 0 cexCfg
    50 true true rfl).2

/-- Witness for C7 at a concrete failed response and a concrete well-formed
request over an empty store. -/
theorem getFeed_error_contract_witness :
    (getFeedResult { ok := false, body := "boom", feed := { items := [], next_cursor := none } } =
        Except.error "boom" ↔ false = false) ∧
    (getFeedResult { ok := false, body := "boom", feed := { items := [], next_cursor := none } } =
        Except.ok { items := [], next_cursor := none } ↔ false = true) ∧
    handleFeedRequest { users := [mkUser "u"], posts := [] } "u" none [] [] [] 0 cexCfg
      50 true false = Except.ok { items := [], next_cursor := none } :=
  getFeed_error_contract
    { ok := false, body := "boom", feed := { items := [], next_cursor := none } }
    [mkUser "u"] "u" none [] [] 0 cexCfg 50 true false (mkUser "u") (by rfl) (by decide)

/-- Witness for C10 at concrete flags. -/
theorem getFeed_limit_fixed_witness :
    (getFeedParams true true).lookup "limit" = some "50" :=
  (getFeed_limit_fixed true true).1

end XRec
